import Mathlib

/-!
Verification of `trap_merged.c` (parallel trapezoidal rule over MPI).

The C program is embedded shallowly over exact rational arithmetic:
C `float` values are modelled as `ℚ` (the claims under scrutiny are stated
"in exact arithmetic"), and the C `int` quantities `n`, `p`, `my_rank`,
`local_n` are modelled as `ℕ` in the partition/integration pipeline, which
is faithful on the ranges the claims quantify over (`n ≥ 1`, `p ≥ 1`,
`0 ≤ my_rank < p`, where C integer division and modulus agree with `ℕ`
division and modulus, and no 32-bit overflow occurs).  The command-line
value of `n` before validation is modelled as `Int`, since the `n <= 0`
check is about possibly negative inputs.
-/

namespace TrapC

/-- `f` from `trap_merged.c`: the integrand, fixed to `f(x) = x*x`. -/
def f (x : ℚ) : ℚ := x * x

/-- The loop of `Trap`: `for (i = 1; i <= local_n-1; i++) { x = x + h;
integral = integral + f(x); }`, as a recursion on the number of remaining
iterations; the state is the pair `(x, integral)`. -/
def trapLoop (x integral h : ℚ) : ℕ → ℚ × ℚ
  | 0 => (x, integral)
  | k + 1 => trapLoop (x + h) (integral + f (x + h)) h k

/-- `Trap` from `trap_merged.c` (lines 162-182):
`integral = (f(local_a) + f(local_b))/2.0;` then the loop runs `x` from
`local_a` by repeated addition of `h` for `local_n - 1` iterations
(zero iterations when `local_n ≤ 1`, matching the C test `i <= local_n-1`),
then `integral = integral*h`. -/
def Trap (local_a local_b : ℚ) (local_n : ℕ) (h : ℚ) : ℚ :=
  (trapLoop local_a ((f local_a + f local_b) / 2) h (local_n - 1)).2 * h

/-- The per-rank partition data computed in `main`. -/
structure Part where
  localA : ℚ
  localB : ℚ
  localN : ℕ
  deriving DecidableEq, Repr

/-- The partition block of `main` (lines 100-118):
`h = (b-a)/n; local_n = n/p; residual = n%p;
local_a = a + my_rank*local_n*h;
if (my_rank < residual) { local_n++; local_a += my_rank*h; }
else { local_a += residual*h; }
local_b = local_a + local_n*h;`. -/
def partition (a b : ℚ) (n p my_rank : ℕ) : Part :=
  let h : ℚ := (b - a) / (n : ℚ)
  let local_n : ℕ := n / p
  let residual : ℕ := n % p
  let local_a : ℚ := a + ((my_rank * local_n : ℕ) : ℚ) * h
  if my_rank < residual then
    let local_n' := local_n + 1
    let local_a' := local_a + (my_rank : ℚ) * h
    { localA := local_a', localB := local_a' + (local_n' : ℚ) * h, localN := local_n' }
  else
    let local_a' := local_a + (residual : ℚ) * h
    { localA := local_a', localB := local_a' + (local_n : ℚ) * h, localN := local_n }

/-- `integral = Trap(local_a, local_b, local_n, h)` computed by the rank
`my_rank` process (line 120). -/
def trapPiece (a b : ℚ) (n p my_rank : ℕ) : ℚ :=
  let pt := partition a b n p my_rank
  Trap pt.localA pt.localB pt.localN ((b - a) / (n : ℚ))

/-- Sum of `g` over ranks `0..k-1`; `sumRanks g p` models
`MPI_Reduce(..., MPI_SUM, ...)` over the whole communicator (in exact
arithmetic the summation order is immaterial). -/
def sumRanks (g : ℕ → ℚ) : ℕ → ℚ
  | 0 => 0
  | k + 1 => sumRanks g k + g k

/-- Sum of an `ℕ`-valued function over ranks `0..k-1` (used to state the
partition-completeness invariant `Σ local_n = n`). -/
def sumRanksN (g : ℕ → ℕ) : ℕ → ℕ
  | 0 => 0
  | k + 1 => sumRanksN g k + g k

/-- The reduced total received by rank 0: the sum over all `p` ranks of the
per-rank `Trap` results. -/
def totalEstimate (a b : ℚ) (n p : ℕ) : ℚ :=
  sumRanks (fun r => trapPiece a b n p r) p

/-- The closed-form value printed by rank 0 (line 155):
`(pow(b,3)-pow(a,3))/3.0`. -/
def trueValue (a b : ℚ) : ℚ := (b ^ 3 - a ^ 3) / 3

/-- The rank-0 command-line processing (lines 70-81): when `argc > 1` the
program reads `argv[1]`, `argv[2]`, `argv[3]` through `atof`/`atof`/`atoi`;
otherwise it keeps the defaults `a = 0.0`, `b = 1.0`, `n = 1024`.  The C
library converters are abstract parameters here; an out-of-range index is
given the harmless default `""` (the C program's actual out-of-bounds
behaviour is the subject of the separate `argvReads` analysis). -/
def parseArgs (atof : String → ℚ) (atoi : String → Int) (argv : List String) :
    ℚ × ℚ × Int :=
  if 1 < argv.length then
    (atof (argv.getD 1 ""), atof (argv.getD 2 ""), atoi (argv.getD 3 ""))
  else (0, 1, 1024)

/-- The `argv` indices dereferenced by the parsing branch, as a function of
`argc`: the branch `if (argc > 1)` unconditionally reads `argv[1]`,
`argv[2]` and `argv[3]`. -/
def argvReads (argc : ℕ) : List ℕ := if 1 < argc then [1, 2, 3] else []

/-- Outcome of a run: either `MPI_Abort` with a message and an error code,
or a finished run carrying the reduced total. -/
inductive RunResult where
  | aborted (msg : String) (code : ℕ)
  | finished (total : ℚ)
  deriving DecidableEq

/-- The control flow of `main` after argument parsing (lines 89-141): rank 0
checks `n <= 0` and calls `MPI_Abort(MPI_COMM_WORLD, 1)` after printing the
error message, before any broadcast or partitioning; otherwise the
parameters are broadcast, every rank partitions and integrates, and the
results are reduced to rank 0. -/
def runMain (a b : ℚ) (n : Int) (p : ℕ) : RunResult :=
  if n ≤ 0 then RunResult.aborted "Error: n <= 0 or n is not a number.\n" 1
  else RunResult.finished (totalEstimate a b n.toNat p)

/-! ### Characterisation of the partition arithmetic -/

theorem partition_localN (a b : ℚ) (n p r : ℕ) :
    (partition a b n p r).localN = if r < n % p then n / p + 1 else n / p := by
  unfold partition
  by_cases hr : r < n % p <;> simp [hr]

theorem partition_localA_eq (a b : ℚ) (n p r : ℕ) :
    (partition a b n p r).localA =
      if r < n % p then
        a + ((r * (n / p) : ℕ) : ℚ) * ((b - a) / (n : ℚ)) + (r : ℚ) * ((b - a) / (n : ℚ))
      else
        a + ((r * (n / p) : ℕ) : ℚ) * ((b - a) / (n : ℚ))
          + ((n % p : ℕ) : ℚ) * ((b - a) / (n : ℚ)) := by
  unfold partition
  by_cases hr : r < n % p <;> simp [hr]

theorem partition_localB_eq (a b : ℚ) (n p r : ℕ) :
    (partition a b n p r).localB
      = (partition a b n p r).localA
          + ((partition a b n p r).localN : ℚ) * ((b - a) / (n : ℚ)) := by
  unfold partition
  by_cases hr : r < n % p <;> simp [hr]

theorem sumRanksN_localN (a b : ℚ) (n p k : ℕ) :
    sumRanksN (fun r => (partition a b n p r).localN) k
      = k * (n / p) + min k (n % p) := by
  induction k with
  | zero => simp [sumRanksN]
  | succ k ih =>
    rw [sumRanksN, ih, partition_localN]
    by_cases hk : k < n % p
    · rw [if_pos hk, min_eq_left (Nat.le_of_lt hk),
        min_eq_left (Nat.succ_le_of_lt hk), Nat.succ_eq_add_one]
      ring
    · rw [if_neg hk, min_eq_right (Nat.le_of_not_lt hk),
        min_eq_right (le_trans (Nat.le_of_not_lt hk) (Nat.le_succ k))]
      ring

theorem partition_localA_cumulative (a b : ℚ) (n p r : ℕ) :
    (partition a b n p r).localA
      = a + ((b - a) / (n : ℚ))
          * (sumRanksN (fun rr => (partition a b n p rr).localN) r : ℚ) := by
  rw [partition_localA_eq, sumRanksN_localN]
  by_cases hr : r < n % p
  · rw [if_pos hr, min_eq_left (Nat.le_of_lt hr)]
    push_cast
    ring
  · rw [if_neg hr, min_eq_right (Nat.le_of_not_lt hr)]
    push_cast
    ring

theorem sumRanksN_localN_total (a b : ℚ) (n p : ℕ) (hp : 1 ≤ p) :
    sumRanksN (fun r => (partition a b n p r).localN) p = n := by
  rw [sumRanksN_localN, min_eq_right (Nat.le_of_lt (Nat.mod_lt n hp))]
  exact Nat.div_add_mod n p

/-- C2: for every `n ≥ 1` and `p ≥ 1`, the local subinterval counts computed
by the partitioning code sum over ranks `0..p-1` to exactly `n`, so every one
of the `n` subintervals is assigned to exactly one worker. -/
theorem partition_completeness (a b : ℚ) (n p : ℕ) (_hn : 1 ≤ n) (hp : 1 ≤ p) :
    sumRanksN (fun r => (partition a b n p r).localN) p = n :=
  sumRanksN_localN_total a b n p hp

theorem partition_completeness_witness :
    sumRanksN (fun r => (partition 0 1 10 3 r).localN) 3 = 10 :=
  partition_completeness 0 1 10 3 (by decide) (by decide)

/-- C7: with `base_count = n/p` and `residual = n mod p`, every rank below
`residual` gets `local_n = base_count + 1` and every other rank gets
`local_n = base_count`. -/
theorem remainder_tie_break (a b : ℚ) (n p rank : ℕ) (_hn : 1 ≤ n) (_hp : 1 ≤ p) :
    (partition a b n p rank).localN
      = if rank < n % p then n / p + 1 else n / p :=
  partition_localN a b n p rank

theorem remainder_tie_break_witness :
    (partition 0 1 10 3 0).localN = 4 ∧ (partition 0 1 10 3 1).localN = 3
      ∧ (partition 0 1 10 3 2).localN = 3 :=
  ⟨(remainder_tie_break 0 1 10 3 0 (by decide) (by decide)).trans (by decide),
   (remainder_tie_break 0 1 10 3 1 (by decide) (by decide)).trans (by decide),
   (remainder_tie_break 0 1 10 3 2 (by decide) (by decide)).trans (by decide)⟩

/-- C3: each rank's `local_a` is `a + h * (sum of local_n over lower ranks)`,
`local_b = local_a + local_n * h`, consecutive ranks' ranges touch exactly,
rank 0 starts at `a`, and rank `p-1` ends at `b` (exact arithmetic). -/
theorem partition_contiguity (a b : ℚ) (n p rank : ℕ)
    (hn : 1 ≤ n) (hp : 1 ≤ p) (_hrank : rank < p) :
    ((partition a b n p rank).localA
        = a + ((b - a) / (n : ℚ))
            * (sumRanksN (fun r => (partition a b n p r).localN) rank : ℚ))
    ∧ ((partition a b n p rank).localB
        = (partition a b n p rank).localA
            + ((partition a b n p rank).localN : ℚ) * ((b - a) / (n : ℚ)))
    ∧ (rank + 1 < p →
        (partition a b n p rank).localB = (partition a b n p (rank + 1)).localA)
    ∧ (partition a b n p 0).localA = a
    ∧ (partition a b n p (p - 1)).localB = b := by
  have hcast : ((n : ℚ)) ≠ 0 := Nat.cast_ne_zero.mpr (by omega)
  refine ⟨partition_localA_cumulative a b n p rank,
    partition_localB_eq a b n p rank, fun _ => ?_, ?_, ?_⟩
  · rw [partition_localB_eq, partition_localA_cumulative,
      partition_localA_cumulative, sumRanksN]
    push_cast
    ring
  · rw [partition_localA_cumulative]
    simp [sumRanksN]
  · have hp1 : (p - 1) + 1 = p := Nat.succ_pred_eq_of_pos hp
    have hS : sumRanksN (fun r => (partition a b n p r).localN) (p - 1)
        + (partition a b n p (p - 1)).localN = n := by
      calc sumRanksN (fun r => (partition a b n p r).localN) (p - 1)
            + (partition a b n p (p - 1)).localN
          = sumRanksN (fun r => (partition a b n p r).localN) ((p - 1) + 1) := by
            rw [sumRanksN]
        _ = sumRanksN (fun r => (partition a b n p r).localN) p := by rw [hp1]
        _ = n := sumRanksN_localN_total a b n p hp
    have hSL : (sumRanksN (fun r => (partition a b n p r).localN) (p - 1) : ℚ)
        + ((partition a b n p (p - 1)).localN : ℚ) = (n : ℚ) := by
      exact_mod_cast congrArg (Nat.cast : ℕ → ℚ) hS
    calc (partition a b n p (p - 1)).localB
        = a + ((b - a) / (n : ℚ))
            * ((sumRanksN (fun r => (partition a b n p r).localN) (p - 1) : ℚ)
              + ((partition a b n p (p - 1)).localN : ℚ)) := by
          rw [partition_localB_eq, partition_localA_cumulative]
          ring
      _ = a + ((b - a) / (n : ℚ)) * (n : ℚ) := by rw [hSL]
      _ = b := by rw [div_mul_cancel₀ _ hcast]; ring

theorem partition_contiguity_witness :
    ((partition 0 1 10 3 1).localA
        = 0 + ((1 - 0) / ((10 : ℕ) : ℚ))
            * (sumRanksN (fun r => (partition 0 1 10 3 r).localN) 1 : ℚ))
    ∧ ((partition 0 1 10 3 1).localB
        = (partition 0 1 10 3 1).localA
            + ((partition 0 1 10 3 1).localN : ℚ) * ((1 - 0) / ((10 : ℕ) : ℚ)))
    ∧ (1 + 1 < 3 →
        (partition 0 1 10 3 1).localB = (partition 0 1 10 3 (1 + 1)).localA)
    ∧ (partition 0 1 10 3 0).localA = 0
    ∧ (partition 0 1 10 3 (3 - 1)).localB = 1 :=
  partition_contiguity 0 1 10 3 1 (by decide) (by decide) (by decide)

/-! ### Closed form of the trapezoidal loop -/

theorem trapLoop_spec (h : ℚ) (k : ℕ) :
    ∀ x acc : ℚ, trapLoop x acc h k
      = (x + (k : ℚ) * h,
         acc + ∑ i ∈ Finset.range k, f (x + ((i : ℚ) + 1) * h)) := by
  induction k with
  | zero => intro x acc; simp [trapLoop]
  | succ k ih =>
    intro x acc
    rw [trapLoop, ih]
    have hsum : ∑ i ∈ Finset.range (k + 1), f (x + ((i : ℚ) + 1) * h)
        = f (x + h) + ∑ i ∈ Finset.range k, f (x + h + ((i : ℚ) + 1) * h) := by
      rw [Finset.sum_range_succ', add_comm]
      refine congrArg₂ (· + ·) (congrArg f (by push_cast; ring)) ?_
      refine Finset.sum_congr rfl fun i _ => congrArg f ?_
      push_cast
      ring
    refine Prod.ext ?_ ?_
    · show x + h + (k : ℚ) * h = x + (((k : ℕ) + 1 : ℕ) : ℚ) * h
      push_cast
      ring
    · show acc + f (x + h) + ∑ i ∈ Finset.range k, f (x + h + ((i : ℚ) + 1) * h)
        = acc + ∑ i ∈ Finset.range (k + 1), f (x + ((i : ℚ) + 1) * h)
      rw [hsum]
      ring

theorem Trap_sum (local_a local_b : ℚ) (local_n : ℕ) (h : ℚ) :
    Trap local_a local_b local_n h
      = h * ((f local_a + f local_b) / 2
          + ∑ i ∈ Finset.Ico 1 local_n, f (local_a + (i : ℚ) * h)) := by
  unfold Trap
  rw [trapLoop_spec]
  cases local_n with
  | zero => simp; ring
  | succ m =>
    have hIco : ∑ i ∈ Finset.Ico 1 (m + 1), f (local_a + (i : ℚ) * h)
        = ∑ i ∈ Finset.range m, f (local_a + ((i : ℚ) + 1) * h) := by
      rw [Finset.sum_Ico_eq_sum_range]
      simp only [Nat.add_sub_cancel]
      refine Finset.sum_congr rfl fun i _ => congrArg f ?_
      push_cast
      ring
    rw [hIco]
    simp only [Nat.add_sub_cancel]
    ring

/-- C4: `Trap(local_a, local_b, local_n, h)`, which accumulates the sample
point `x` by repeated addition of `h`, returns in exact arithmetic
`h * ((f(local_a) + f(local_b))/2 + Σ_{i=1}^{local_n-1} f(local_a + i*h))`
with `f(x) = x²`, for every `local_a`, `local_b`, `h` and every
`local_n ≥ 0`. -/
theorem Trap_closed_form (local_a local_b : ℚ) (local_n : ℕ) (h : ℚ) :
    Trap local_a local_b local_n h
      = h * ((f local_a + f local_b) / 2
          + ∑ i ∈ Finset.Ico 1 local_n, f (local_a + (i : ℚ) * h)) :=
  Trap_sum local_a local_b local_n h

/-! ### Additivity of Trap over adjacent ranges and partition invariance -/

theorem Trap_split (la h : ℚ) (m q : ℕ) (hm : 1 ≤ m) (hq : 1 ≤ q) :
    Trap la (la + ((m + q : ℕ) : ℚ) * h) (m + q) h
      = Trap la (la + (m : ℚ) * h) m h
        + Trap (la + (m : ℚ) * h) (la + ((m + q : ℕ) : ℚ) * h) q h := by
  rw [Trap_sum, Trap_sum, Trap_sum]
  have hsplit : ∑ i ∈ Finset.Ico 1 (m + q), f (la + (i : ℚ) * h)
      = (∑ i ∈ Finset.Ico 1 m, f (la + (i : ℚ) * h))
        + ∑ i ∈ Finset.Ico m (m + q), f (la + (i : ℚ) * h) :=
    (Finset.sum_Ico_consecutive _ hm (Nat.le_add_right m q)).symm
  have hbot : ∑ i ∈ Finset.Ico m (m + q), f (la + (i : ℚ) * h)
      = f (la + (m : ℚ) * h)
        + ∑ i ∈ Finset.Ico (m + 1) (m + q), f (la + (i : ℚ) * h) :=
    Finset.sum_eq_sum_Ico_succ_bot (by omega) _
  have hIcoEq : Finset.Ico (1 + m) (q + m) = Finset.Ico (m + 1) (m + q) := by
    rw [Nat.add_comm 1 m, Nat.add_comm q m]
  have hshift : ∑ i ∈ Finset.Ico 1 q, f (la + (m : ℚ) * h + (i : ℚ) * h)
      = ∑ i ∈ Finset.Ico (m + 1) (m + q), f (la + (i : ℚ) * h) := by
    rw [← hIcoEq, ← Finset.sum_Ico_add' (fun i : ℕ => f (la + (i : ℚ) * h)) 1 q m]
    refine Finset.sum_congr rfl fun i _ => congrArg f ?_
    push_cast
    ring
  rw [hsplit, hbot, ← hshift]
  push_cast
  ring

theorem partition_uniform (a b : ℚ) (n p r : ℕ) (_hp : 1 ≤ p) (hd : p ∣ n) :
    partition a b n p r
      = { localA := a + ((r * (n / p) : ℕ) : ℚ) * ((b - a) / (n : ℚ)),
          localB := a + ((r * (n / p) : ℕ) : ℚ) * ((b - a) / (n : ℚ))
            + ((n / p : ℕ) : ℚ) * ((b - a) / (n : ℚ)),
          localN := n / p } := by
  have hm : n % p = 0 := Nat.mod_eq_zero_of_dvd hd
  unfold partition
  rw [hm]
  simp

theorem trapPiece_uniform (a b : ℚ) (n p r : ℕ) (hp : 1 ≤ p) (hd : p ∣ n) :
    trapPiece a b n p r
      = Trap (a + ((r * (n / p) : ℕ) : ℚ) * ((b - a) / (n : ℚ)))
          (a + (((r + 1) * (n / p) : ℕ) : ℚ) * ((b - a) / (n : ℚ)))
          (n / p) ((b - a) / (n : ℚ)) := by
  have hB : a + ((r * (n / p) : ℕ) : ℚ) * ((b - a) / (n : ℚ))
      + ((n / p : ℕ) : ℚ) * ((b - a) / (n : ℚ))
      = a + (((r + 1) * (n / p) : ℕ) : ℚ) * ((b - a) / (n : ℚ)) := by
    push_cast
    ring
  unfold trapPiece
  rw [partition_uniform a b n p r hp hd]
  show Trap (a + ((r * (n / p) : ℕ) : ℚ) * ((b - a) / (n : ℚ)))
      (a + ((r * (n / p) : ℕ) : ℚ) * ((b - a) / (n : ℚ))
        + ((n / p : ℕ) : ℚ) * ((b - a) / (n : ℚ)))
      (n / p) ((b - a) / (n : ℚ)) = _
  rw [hB]

theorem sumRanks_uniform (a b : ℚ) (n p : ℕ) (hp : 1 ≤ p) (hd : p ∣ n)
    (hq : 1 ≤ n / p) :
    ∀ k, 1 ≤ k → k ≤ p →
      sumRanks (fun r => trapPiece a b n p r) k
        = Trap a (a + ((k * (n / p) : ℕ) : ℚ) * ((b - a) / (n : ℚ)))
            (k * (n / p)) ((b - a) / (n : ℚ)) := by
  intro k
  induction k with
  | zero => intro h0 _; exact absurd h0 (by omega)
  | succ k ih =>
    intro _ hkp
    cases Nat.eq_zero_or_pos k with
    | inl hk0 =>
      subst hk0
      rw [sumRanks, sumRanks, trapPiece_uniform a b n p 0 hp hd]
      norm_num
    | inr hk1 =>
      rw [sumRanks, ih hk1 (by omega), trapPiece_uniform a b n p k hp hd]
      have hmul : (k + 1) * (n / p) = k * (n / p) + n / p := Nat.succ_mul k (n / p)
      rw [hmul]
      exact (Trap_split a ((b - a) / (n : ℚ)) (k * (n / p)) (n / p)
        (Nat.mul_pos hk1 hq) hq).symm

theorem totalEstimate_dvd (a b : ℚ) (n p : ℕ) (hn : 1 ≤ n) (hp : 1 ≤ p)
    (hd : p ∣ n) :
    totalEstimate a b n p = Trap a b n ((b - a) / (n : ℚ)) := by
  have hq : 1 ≤ n / p :=
    (Nat.one_le_div_iff (by omega)).mpr (Nat.le_of_dvd (by omega) hd)
  unfold totalEstimate
  rw [sumRanks_uniform a b n p hp hd hq p hp le_rfl, Nat.mul_div_cancel' hd]
  have hcast : ((n : ℚ)) ≠ 0 := Nat.cast_ne_zero.mpr (by omega)
  have hb : a + (n : ℚ) * ((b - a) / (n : ℚ)) = b := by
    field_simp
  rw [hb]

/-- C5: for `a=0`, `b=1`, `n=1024` and `p ∈ {1,2,4,8}`, the sum over all
ranks of the per-rank `Trap` results equals (in exact arithmetic) the
single-process estimate computed with `p = 1`, which itself is
`Trap(a, b, n, h)`. -/
theorem partition_invariance_1024 :
    totalEstimate 0 1 1024 1 = Trap 0 1 1024 ((1 - 0) / ((1024 : ℕ) : ℚ))
    ∧ totalEstimate 0 1 1024 2 = totalEstimate 0 1 1024 1
    ∧ totalEstimate 0 1 1024 4 = totalEstimate 0 1 1024 1
    ∧ totalEstimate 0 1 1024 8 = totalEstimate 0 1 1024 1 := by
  have h1 := totalEstimate_dvd 0 1 1024 1 (by omega) (by omega) ⟨1024, by norm_num⟩
  have h2 := totalEstimate_dvd 0 1 1024 2 (by omega) (by omega) ⟨512, by norm_num⟩
  have h4 := totalEstimate_dvd 0 1 1024 4 (by omega) (by omega) ⟨256, by norm_num⟩
  have h8 := totalEstimate_dvd 0 1 1024 8 (by omega) (by omega) ⟨128, by norm_num⟩
  exact ⟨h1, h2.trans h1.symm, h4.trans h1.symm, h8.trans h1.symm⟩

/-! ### The zero-width edge case (p > n) -/

/-- C1 (what the code actually does at the claim's own example): for
`a=0, b=1, n=2, p=5` the three ranks 2, 3, 4 get `local_n = 0` with
`local_a = local_b = 1`, yet each contributes
`Trap(1, 1, 0, 1/2) = h*(f(local_a)+f(local_b))/2 = 1/2`, which is not `0`:
the code's trapezoidal formula over a zero-width range does not evaluate
to `0`. -/
theorem zero_width_contribution :
    (partition 0 1 2 5 2).localN = 0
    ∧ (partition 0 1 2 5 2).localA = (partition 0 1 2 5 2).localB
    ∧ trapPiece 0 1 2 5 2 = 1 / 2
    ∧ trapPiece 0 1 2 5 3 = 1 / 2
    ∧ trapPiece 0 1 2 5 4 = 1 / 2
    ∧ (1 / 2 : ℚ) ≠ 0 := by
  refine ⟨by decide, ?_, ?_, ?_, ?_, by norm_num⟩ <;>
    norm_num [trapPiece, partition, Trap, trapLoop, f]

/-! ### Input validation, CLI and reporting -/

/-- C6: when `n ≤ 0` the run aborts with status 1 (with the error message),
for every worker count `p` and irrespective of the partition; when `n ≥ 1`
the abort path is not taken and the run finishes with the reduced total. -/
theorem abort_on_nonpositive_n (a b : ℚ) (n : Int) (p : ℕ) :
    (n ≤ 0 →
      runMain a b n p
        = RunResult.aborted "Error: n <= 0 or n is not a number.\n" 1)
    ∧ (1 ≤ n →
      runMain a b n p = RunResult.finished (totalEstimate a b n.toNat p)) := by
  refine ⟨fun hn => ?_, fun hn => ?_⟩
  · unfold runMain
    rw [if_pos hn]
  · unfold runMain
    rw [if_neg (by omega)]

theorem abort_on_nonpositive_n_witness :
    (runMain 0 1 (-5) 3
        = RunResult.aborted "Error: n <= 0 or n is not a number.\n" 1)
    ∧ (runMain 0 1 5 3 = RunResult.finished (totalEstimate 0 1 (Int.toNat 5) 3)) :=
  ⟨(abort_on_nonpositive_n 0 1 (-5) 3).1 (by norm_num),
   (abort_on_nonpositive_n 0 1 5 3).2 (by norm_num)⟩

/-- C8: with no command-line arguments the defaults `a = 0.0`, `b = 1.0`,
`n = 1024` are used; with (at least three) positional arguments the first is
parsed into `a`, the second into `b` and the third into `n`. -/
theorem cli_parsing (atof : String → ℚ) (atoi : String → Int) (prog : String) :
    parseArgs atof atoi [prog] = (0, 1, 1024)
    ∧ ∀ (s1 s2 s3 : String) (rest : List String),
        parseArgs atof atoi (prog :: s1 :: s2 :: s3 :: rest)
          = (atof s1, atof s2, atoi s3) := by
  constructor
  · unfold parseArgs
    rw [if_neg (by simp)]
  · intro s1 s2 s3 rest
    unfold parseArgs
    rw [if_pos (by simp)]
    simp

/-- C9: the reported true value `(pow(b,3)-pow(a,3))/3.0` equals, in exact
arithmetic, `1/3` for `a=0, b=1` and `8/3` for `a=0, b=2`. -/
theorem true_value_closed_form :
    trueValue 0 1 = 1 / 3 ∧ trueValue 0 2 = 8 / 3 := by
  constructor <;> norm_num [trueValue]

/-- C10: whenever `argc > 1` the parsing branch reads `argv[1]`, `argv[2]`
and `argv[3]`, and all three indices are within the `argc` command-line
entries only when `argc ≥ 4`. -/
theorem argv_bounds (argc : ℕ) (hargc : 1 < argc) :
    argvReads argc = [1, 2, 3]
    ∧ (((argvReads argc).all fun i => decide (i < argc)) = true ↔ 4 ≤ argc) := by
  constructor
  · unfold argvReads
    rw [if_pos hargc]
  · unfold argvReads
    rw [if_pos hargc]
    simp [List.all]
    omega

theorem argv_bounds_witness :
    argvReads 2 = [1, 2, 3]
    ∧ (((argvReads 2).all fun i => decide (i < 2)) = true ↔ 4 ≤ 2) :=
  argv_bounds 2 (by decide)

end TrapC
